import Mathlib

/-!
Verification of the quiz-app question engine.

This file gives a shallow embedding, in Lean, of the question-generation
and session logic of the quiz application (`script.js`): scalar item
values, the per-category uniqueness analysis, question-pool construction,
distractor selection, the fuzzy answer matcher, deduplication and the
session scoring state machine.  Randomness (`Math.random`) is modelled by
explicit oracle functions supplying the random draws, so that properties
can be proved for every outcome of the random choices.  JavaScript
numbers appearing as item values are modelled as integers; strings are
modelled as lists of code points.
-/

namespace QuizApp

/-- Scalar JavaScript value stored in an item's property, as produced by
parsing `data.json`: `null`, a string, a number (modelled as an integer)
or a boolean.  `undefined` (a missing key) is modelled by `Option` at use
sites. -/
inductive JVal where
  | null
  | str (s : String)
  | num (n : Int)
  | bool (b : Bool)
deriving DecidableEq, Repr

/-- JavaScript truthiness of a scalar value: `null`, `''`, `0` and
`false` are falsy, everything else truthy. -/
def jvTruthy : JVal → Bool
  | JVal.null => false
  | JVal.str s => s ≠ ""
  | JVal.num n => n ≠ 0
  | JVal.bool b => b

/-- JavaScript `String(v)` coercion of a scalar value, used when a value
becomes an object key in the per-property value index. -/
def jvalToKey : JVal → String
  | JVal.null => "null"
  | JVal.str s => s
  | JVal.num n => toString n
  | JVal.bool true => "true"
  | JVal.bool false => "false"

/-- One dataset item: the mandatory `name`, the optional legacy `image`
string, the optional `images` array, and the remaining attribute keys as
an association list (`props` models every key of the JS object other than
`name`/`image`/`images`). -/
structure Item where
  name : String
  image : Option String
  images : Option (List String)
  props : List (String × JVal)
deriving DecidableEq, Repr

/-- Property access `item[p]` for an attribute key: `none` models
JavaScript `undefined` (key absent). -/
def getProp? (it : Item) (p : String) : Option JVal :=
  it.props.lookup p

/-- Value of `item[p] ?? null` coerced with `String(·)`, the key used by
`propValueMap[p]` in `buildQuestionPool`. -/
def itemKey (it : Item) (p : String) : String :=
  jvalToKey ((getProp? it p).getD JVal.null)

/-! ### Generic utilities shared by the engine -/

/-- Keep-first deduplication with an explicit `seen`-key accumulator.
This is the common shape of both `dedupeQuestions` (a `Set` of
signature strings threaded through `Array.prototype.filter`) and
`Array.from(new Set(...))` (JS `Set` iteration preserves first-insertion
order). -/
def dedupByAux {α : Type} {κ : Type} [DecidableEq κ] (key : α → κ) (seen : List κ) :
    List α → List α
  | [] => []
  | q :: l =>
    if key q ∈ seen then dedupByAux key seen l
    else q :: dedupByAux key (key q :: seen) l

/-- Model of `Array.from(new Set(l))`: first occurrence of each element
is kept, in order. -/
def dedupFirst {α : Type} [DecidableEq α] (l : List α) : List α :=
  dedupByAux id [] l

/-- Exchange the elements at positions `i` and `j`, the effect of the JS
destructuring swap `[a[i], a[j]] = [a[j], a[i]]` (identity when either
index is out of bounds, which the shuffle loop never produces). -/
def listSwap {α : Type} (l : List α) (i j : Nat) : List α :=
  match l.get? i, l.get? j with
  | some a, some b => (l.set i b).set j a
  | _, _ => l

/-- Fisher–Yates downward loop of `shuffleArray`: at index `i > 0` draw
`j = Math.floor(Math.random() * (i + 1)) ∈ [0, i]` — modelled as
`r i % (i + 1)` for an arbitrary oracle `r` — swap, and continue with
`i - 1`. -/
def fyAux {α : Type} (r : Nat → Nat) : Nat → List α → List α
  | 0, l => l
  | i + 1, l => fyAux r i (listSwap l (i + 1) (r (i + 1) % (i + 2)))

/-- Model of `shuffleArray`: Fisher–Yates over a copy of the input, with
the random draws supplied by the oracle `r`. -/
def shuffleArray {α : Type} (r : Nat → Nat) (l : List α) : List α :=
  fyAux r (l.length - 1) l

/-- Model of `combinations(arr, k)`: all size-`k` subsets of `arr` in the
source's fixed enumeration order (depth-first by index: subsets
containing `arr[0]` first, then those without it). -/
def combinations {α : Type} : List α → Nat → List (List α)
  | _, 0 => [[]]
  | [], _ + 1 => []
  | a :: l, k + 1 => (combinations l k).map (fun c => a :: c) ++ combinations l (k + 1)

/-! ### Fuzzy matcher (`normalizeForCompare`, `compareAnswers`,
`isEditDistanceAtMostOne`) -/

/-- Combining diacritical mark, the code-point range `[̀-ͯ]`
stripped by `normalizeForCompare`. -/
def isCombiningMark (c : Char) : Bool :=
  0x300 ≤ c.toNat && c.toNat ≤ 0x36f

/-- Whitespace as trimmed by `String.prototype.trim` (the common ASCII
whitespace code points; exotic Unicode spaces are out of scope for the
dataset's answers). -/
def isJsSpace (c : Char) : Bool :=
  c == ' ' || c == '\t' || c == '\n' || c == '\r' || c == '\x0b' || c == '\x0c'

/-- Drop leading and trailing whitespace (`.trim()`). -/
def trimChars (l : List Char) : List Char :=
  ((l.dropWhile isJsSpace).reverse.dropWhile isJsSpace).reverse

/-- Model of `normalizeForCompare`: NFD-decompose, strip combining marks,
trim, lower-case.  The NFD decomposition step is modelled as the identity
on code points (inputs are taken to be already decomposed sequences); the
subsequent `replace(/[̀-ͯ]/g, '')` is the mark filter, then
`.trim()` and `.toLowerCase()` (ASCII case fold). -/
def normalizeForCompare (l : List Char) : List Char :=
  (trimChars (l.filter (fun c => !isCombiningMark c))).map Char.toLower

/-- Number of mismatching positions of two equal-length strings, the
`diff` counter of the equal-length branch of `isEditDistanceAtMostOne`
(the early `return false` at `diff > 1` only short-circuits the loop, so
the branch's result is `diff ≤ 1` over the whole length). -/
def diffCount : List Char → List Char → Nat
  | a :: s, b :: t => (if a = b then 0 else 1) + diffCount s t
  | _, _ => 0

/-- The linear scan of `isEditDistanceAtMostOne` for the case
`t.length = s.length + 1`: advance over equal characters, allow one
skip in the longer string `t`, fail on a second mismatch, succeed when
either string is exhausted. -/
def scanIns : List Char → List Char → Bool → Bool
  | a :: s, b :: t, skipped =>
    if a = b then scanIns s t skipped
    else if skipped then false
    else scanIns (a :: s) t true
  | _, _, _ => true

/-- Model of `isEditDistanceAtMostOne`.  The source's self-call with
swapped arguments (`if (n > m) return isEditDistanceAtMostOne(t, s)`)
re-enters with `n < m` and falls through to the scan, so it is inlined
as a direct call of `scanIns` on the swapped pair. -/
def isEditDistanceAtMostOne (s t : List Char) : Bool :=
  if s.length + 1 < t.length || t.length + 1 < s.length then false
  else if s.length = t.length then decide (diffCount s t ≤ 1)
  else if t.length < s.length then scanIns t s false
  else scanIns s t false

/-- Result of `compareAnswers`: `'exact' | 'fuzzy' | 'no'`. -/
inductive Cmp where
  | exact
  | fuzzy
  | no
deriving DecidableEq, Repr

/-- Model of `compareAnswers`: normalize both sides, report `exact` on
equality, `fuzzy` when within one edit, `no` otherwise. -/
def compareAnswers (a b : List Char) : Cmp :=
  let x := normalizeForCompare a
  let y := normalizeForCompare b
  if x = y then Cmp.exact
  else if isEditDistanceAtMostOne x y then Cmp.fuzzy
  else Cmp.no

/-! ### Uniqueness analyzer (`findUniquePropertyCombo`) -/

/-- Result record of `findUniquePropertyCombo`: the property subset and
the item's value tuple for it. -/
structure Combo where
  properties : List String
  valueTuple : List JVal
deriving DecidableEq, Repr

/-- The tuple-building inner loop: the item's values at the combo's
properties, `none` when the item lacks any of them (`undefined`/`null`),
which makes the search skip the subset. -/
def tupleOf (it : Item) : List String → Option (List JVal)
  | [] => some []
  | p :: ps =>
    match getProp? it p with
    | none => none
    | some JVal.null => none
    | some v =>
      match tupleOf it ps with
      | none => none
      | some tl => some (v :: tl)

/-- Whether a candidate item matches the tuple on the combo's properties:
`(it[combo[i]] ?? null) === tuple[i]` for every position. -/
def comboMatches (combo : List String) (tuple : List JVal) (it : Item) : Bool :=
  (combo.zip tuple).all fun pv => ((getProp? it pv.1).getD JVal.null) == pv.2

/-- Number of items of the collection matching the tuple.  The source
counts with an early `break` once the count exceeds 1; only the test
`count === 1` is consumed, which agrees with the full count. -/
def matchCount (items : List Item) (combo : List String) (tuple : List JVal) : Nat :=
  (items.filter fun it => comboMatches combo tuple it).length

/-- The body of the subset loop: build the tuple (skipping subsets with
missing values) and accept the subset when exactly one item matches. -/
def comboCheck (item : Item) (items : List Item) (combo : List String) : Option Combo :=
  match tupleOf item combo with
  | none => none
  | some tuple =>
    if matchCount items combo tuple = 1 then
      some { properties := combo, valueTuple := tuple }
    else none

/-- Model of `findUniquePropertyCombo(item, items, allProps, maxCombo,
startK)`: for `k` from `startK` to `min maxCombo allProps.length`, scan
the size-`k` subsets in enumeration order and return the first accepted
one. -/
def findUniquePropertyCombo (item : Item) (items : List Item) (allProps : List String)
    (maxCombo : Nat) (startK : Nat) : Option Combo :=
  let maxK := min maxCombo allProps.length
  (List.range' startK (maxK + 1 - startK)).findSome? fun k =>
    (combinations allProps k).findSome? (comboCheck item items)

/-! ### Question records, signatures and deduplication -/

/-- Question record pushed into the pool, one constructor per `type`
tag.  Each carries its category, the data of its push site and the
`sourceItem`. -/
inductive Question where
  | propToName (category property value correct : String) (src : Item)
  | nameToProp (category property : String) (correct : JVal) (name : String) (src : Item)
  | propsToName (category : String) (properties : List String) (valueTuple : List JVal)
      (correct : String) (src : Item)
  | nameToImage (category name : String) (correctImage : Option String) (src : Item)
  | imageToName (category name : String) (image : Option String) (src : Item)
deriving DecidableEq, Repr

/-- The `sourceItem` field of a question. -/
def questionSrc : Question → Item
  | Question.propToName _ _ _ _ src => src
  | Question.nameToProp _ _ _ _ src => src
  | Question.propsToName _ _ _ _ src => src
  | Question.nameToImage _ _ _ src => src
  | Question.imageToName _ _ _ src => src

/-- Hexadecimal digit for JSON `\u00XX` escapes. -/
def hexDigit (n : Nat) : Char :=
  if n < 10 then Char.ofNat (48 + n) else Char.ofNat (87 + n)

/-- JSON escaping of one character as performed by `JSON.stringify` on
string contents. -/
def jsonEscapeChar (c : Char) : String :=
  if c = '"' then "\\\""
  else if c = '\\' then "\\\\"
  else if c = '\x08' then "\\b"
  else if c = '\x09' then "\\t"
  else if c = '\x0a' then "\\n"
  else if c = '\x0c' then "\\f"
  else if c = '\x0d' then "\\r"
  else if c.toNat < 32 then "\\u00" ++ String.mk [hexDigit (c.toNat / 16), hexDigit (c.toNat % 16)]
  else String.mk [c]

/-- JSON rendering of a string literal. -/
def jsonOfString (s : String) : String :=
  "\"" ++ String.join (s.toList.map jsonEscapeChar) ++ "\""

/-- JSON rendering of a scalar value. -/
def jsonOfJVal : JVal → String
  | JVal.null => "null"
  | JVal.str s => jsonOfString s
  | JVal.num n => toString n
  | JVal.bool true => "true"
  | JVal.bool false => "false"

/-- JSON rendering of an array whose elements are already rendered. -/
def jsonArr (xs : List String) : String :=
  "[" ++ String.intercalate "," xs ++ "]"

/-- Model of the dedup signature
`JSON.stringify([q.type, q.category, q.property || q.properties || q.name || '',
q.value || q.valueTuple || q.correct || ''])`.
The `||` fallbacks are resolved per constructor from which fields exist
on each record and which are falsy: a string is falsy exactly when
empty, an array is always truthy, a `JVal` is falsy per `jvTruthy`.
For `propToName`, `property = ""` falls through to `''` which equals
`property`, so the third slot is just `property`; its `value = ""`
falls through to `correct`.  For `nameToProp`, `property = ""` falls
through to the record's `name`. -/
def dedupKey : Question → String
  | Question.propToName cat p v correct _ =>
    jsonArr [jsonOfString "property->name", jsonOfString cat, jsonOfString p,
      jsonOfString (if v = "" then correct else v)]
  | Question.nameToProp cat p correct name _ =>
    jsonArr [jsonOfString "name->property", jsonOfString cat,
      jsonOfString (if p = "" then name else p),
      if jvTruthy correct then jsonOfJVal correct else jsonOfString ""]
  | Question.propsToName cat props tuple _ _ =>
    jsonArr [jsonOfString "properties->name", jsonOfString cat,
      jsonArr (props.map jsonOfString), jsonArr (tuple.map jsonOfJVal)]
  | Question.nameToImage cat name _ _ =>
    jsonArr [jsonOfString "name->image", jsonOfString cat, jsonOfString name, jsonOfString ""]
  | Question.imageToName cat name _ _ =>
    jsonArr [jsonOfString "image->name", jsonOfString cat, jsonOfString name, jsonOfString ""]

/-- Model of `dedupeQuestions`: keep the first question for each dedup
signature. -/
def dedupeQuestions (l : List Question) : List Question :=
  dedupByAux dedupKey [] l

/-- The (type, category, correct-answer) signature of a question, the
randomness-independent identity used to compare two builds of the pool:
for the image question types the correct answer shown to the user is the
asked item's name (the image fields vary with the random image pick). -/
def sigOf : Question → String × String × String
  | Question.propToName cat _ _ correct _ => ("property->name", cat, correct)
  | Question.nameToProp cat _ correct _ _ => ("name->property", cat, jvalToKey correct)
  | Question.propsToName cat _ _ correct _ => ("properties->name", cat, correct)
  | Question.nameToImage cat name _ _ => ("name->image", cat, name)
  | Question.imageToName cat name _ _ => ("image->name", cat, name)

/-! ### Image helpers and the question pool builder -/

/-- Model of `hasImages(item)`: a non-empty `images` array, or an
`image` field of string type (including the empty string). -/
def hasImages (it : Item) : Bool :=
  (match it.images with
   | some imgs => imgs.length > 0
   | none => false) || it.image.isSome

/-- The `item.image` fallback of `pickRandomImage`: `if (item.image)
return item.image; return null` — JS truthiness makes `''` fall through
to `null`. -/
def imageFallback (it : Item) : Option String :=
  match it.image with
  | some s => if s = "" then none else some s
  | none => none

/-- Model of `pickRandomImage(item)` with the random draw supplied by
`r`: a random element of a non-empty `images` array, else the `image`
fallback. -/
def pickRandomImage (r : Nat) (it : Item) : Option String :=
  match it.images with
  | some imgs =>
    if imgs.length > 0 then some (imgs.getD (r % imgs.length) "") else imageFallback it
  | none => imageFallback it

/-- Attribute keys of the category's first item, excluding `name`,
`image` and `images` — in the model those three live outside `props`, and
the filter of the source line is kept for faithfulness on items whose
`props` would alias them. -/
def allPropsOf (items : List Item) : List String :=
  match items with
  | [] => []
  | sample :: _ =>
    (sample.props.map Prod.fst).filter fun k =>
      k != "name" && k != "image" && k != "images"

/-- The list `propValueMap[p][key]`: the items whose stringified value at
`p` (with `?? null`) equals `key`, in item order (the source pushes while
iterating `items`). -/
def valueItems (items : List Item) (p : String) (key : String) : List Item :=
  items.filter fun it => itemKey it p = key

/-- The distinct value keys of property `p`, in first-occurrence order —
`Object.keys(propValueMap[p])`.  (JS additionally fronts integer-like
keys in numeric order; the properties proved below are insensitive to
the order of this list.) -/
def keysOf (items : List Item) (p : String) : List String :=
  dedupFirst (items.map fun it => itemKey it p)

/-- The `property -> name` generation loop of `buildQuestionPool`: for
each property and each of its value keys, skip the `'null'` sentinel and
emit a question when exactly one item holds the value. -/
def singleFacts (cat : String) (items : List Item) (allProps : List String) : List Question :=
  allProps.flatMap fun p =>
    (keysOf items p).filterMap fun val =>
      if val = "null" then none
      else
        match valueItems items p val with
        | [one] => some (Question.propToName cat p val one.name one)
        | _ => none

/-- The `name -> property` generation loop: for each item and property
with a non-null value held by exactly one item, emit a question. -/
def namePropFacts (cat : String) (items : List Item) (allProps : List String) : List Question :=
  items.flatMap fun it =>
    allProps.filterMap fun p =>
      match getProp? it p with
      | none => none
      | some JVal.null => none
      | some v =>
        if (valueItems items p (jvalToKey v)).length = 1 then
          some (Question.nameToProp cat p v it.name it)
        else none

/-- The `properties -> name` generation loop: one question per item with
a unique property combination. -/
def comboFacts (cat : String) (items : List Item) (allProps : List String) : List Question :=
  items.filterMap fun it =>
    (findUniquePropertyCombo it items allProps 3 2).map fun c =>
      Question.propsToName cat c.properties c.valueTuple it.name it

/-- The `name -> image` generation loop, guarded by at least two imaged
items; `r` supplies the random image draw for each item. -/
def nameToImageFacts (r : Nat → Nat) (cat : String) (items : List Item) : List Question :=
  let iwi := items.filter hasImages
  if 2 ≤ iwi.length then
    iwi.enum.map fun p => Question.nameToImage cat p.2.name (pickRandomImage (r p.1) p.2) p.2
  else []

/-- The `image -> name` generation loop, same guard and shape. -/
def imageToNameFacts (r : Nat → Nat) (cat : String) (items : List Item) : List Question :=
  let iwi := items.filter hasImages
  if 2 ≤ iwi.length then
    iwi.enum.map fun p => Question.imageToName cat p.2.name (pickRandomImage (r p.1) p.2) p.2
  else []

/-- Oracles for every random draw made while building the pool: the
final Fisher–Yates shuffle, and the per-category, per-item image picks
of the two image-question loops. -/
structure PoolRand where
  shuf : Nat → Nat
  imgNI : String → Nat → Nat
  imgIN : String → Nat → Nat

/-- All questions generated for one selected category with a non-empty
item array, in source order: singles, name→property, combinations, then
the two image loops. -/
def categoryQuestions (ρ : PoolRand) (cat : String) (items : List Item) : List Question :=
  let allProps := allPropsOf items
  singleFacts cat items allProps
    ++ namePropFacts cat items allProps
    ++ comboFacts cat items allProps
    ++ nameToImageFacts (ρ.imgNI cat) cat items
    ++ imageToNameFacts (ρ.imgIN cat) cat items

/-- Model of `buildQuestionPool`: iterate the dataset's categories in
order, skipping `_meta`, unselected categories and empty item arrays
(the source's `continue`s, folded into one filter), concatenate each
category's questions, deduplicate, then shuffle. -/
def buildQuestionPool (ρ : PoolRand) (rawData : List (String × List Item))
    (selected : List String) : List Question :=
  let pool :=
    (rawData.filter fun c => c.1 != "_meta" && selected.contains c.1 && !c.2.isEmpty).flatMap
      fun c => categoryQuestions ρ c.1 c.2
  shuffleArray ρ.shuf (dedupeQuestions pool)

/-! ### Distractor selection -/

/-- Model of `pickNameChoices(category, correctName, count)` over the
category's item list: all other names, shuffled, the first `count - 1`
of them, the correct name appended, and a final shuffle. -/
def pickNameChoices (r₁ r₂ : Nat → Nat) (items : List Item) (correctName : String)
    (count : Nat) : List String :=
  let names := items.map Item.name
  let others := names.filter fun n => n != correctName
  let picks := (shuffleArray r₁ others).take (count - 1) ++ [correctName]
  shuffleArray r₂ picks

/-- The distinct non-null values of `property` across the category
(`Array.from(new Set(items.map(it => it[property]).filter(...)))`). -/
def propertyVals (items : List Item) (property : String) : List JVal :=
  dedupFirst (items.filterMap fun it =>
    match getProp? it property with
    | none => none
    | some JVal.null => none
    | some v => some v)

/-- Model of `pickPropertyChoices(category, property, correctValue,
count)`. -/
def pickPropertyChoices (r₁ r₂ : Nat → Nat) (items : List Item) (property : String)
    (correctValue : JVal) (count : Nat) : List JVal :=
  let vals := propertyVals items property
  let others := vals.filter fun v => v != correctValue
  let picks := (shuffleArray r₁ others).take (count - 1) ++ [correctValue]
  shuffleArray r₂ picks

/-- Model of `pickNameChoicesFromImageItems(category, correctName,
count)`: prefer the names of imaged items as the candidate pool, falling
back to all names when fewer than `count - 1` items carry images. -/
def pickNameChoicesFromImageItems (r₁ r₂ : Nat → Nat) (items : List Item)
    (correctName : String) (count : Nat) : List String :=
  let withImages := (items.filter hasImages).map Item.name
  let pool := if count - 1 ≤ withImages.length then withImages else items.map Item.name
  let others := pool.filter fun n => n != correctName
  let picks := (shuffleArray r₁ others).take (count - 1) ++ [correctName]
  shuffleArray r₂ picks

/-- Option list built by `renderNameToImage` for question
`{name := qname, sourceItem := src, correctImage := correctImage}`:
shuffle the category's imaged items, take four as (label, image)
options with fresh random image picks (`rOpt`), force the asked item in
when its label is absent (append below four options, else overwrite slot
0), and shuffle the final list.  `rSrc` is the draw of the
`pickRandomImage(q.sourceItem)` call; `||` is JS truthiness, so an empty
or null pick falls back to `correctImage`. -/
def renderNameToImageChoices (rShuf : Nat → Nat) (rOpt : Nat → Nat) (rSrc : Nat)
    (rFinal : Nat → Nat) (qname : String) (src : Item) (correctImage : Option String)
    (categoryItems : List Item) : List (String × Option String) :=
  let candidates := categoryItems.filter hasImages
  let shuffled := shuffleArray rShuf candidates
  let choices := (shuffled.take 4).enum.map fun p => (p.2.name, pickRandomImage (rOpt p.1) p.2)
  let cImg :=
    match pickRandomImage rSrc src with
    | some s => if s = "" then correctImage else some s
    | none => correctImage
  let choices' :=
    if choices.any fun c => c.1 = qname then choices
    else if choices.length < 4 then choices ++ [(src.name, cImg)]
    else choices.set 0 (src.name, cImg)
  shuffleArray rFinal choices'

/-! ### Session state machine -/

/-- Controller mode: the setup screen or a running quiz. -/
inductive Mode where
  | setup
  | inProgress
deriving DecidableEq, Repr

/-- The mutable session state of the controller: mode, score, streak,
persisted best streak, the fixed question list of the running session
and the current index (−1 before the first question). -/
structure SessionState where
  mode : Mode
  score : Nat
  streak : Nat
  best : Nat
  session : List Question
  index : Int
deriving DecidableEq, Repr

/-- Model of `handleCorrect`: increment score and streak, and raise the
persisted best streak when the new streak exceeds it. -/
def handleCorrect (st : SessionState) : SessionState :=
  let streak := st.streak + 1
  { st with
    score := st.score + 1
    streak := streak
    best := if streak > st.best then streak else st.best }

/-- Model of `handleWrong`: reset the streak; score and best are
untouched. -/
def handleWrong (st : SessionState) : SessionState :=
  { st with streak := 0 }

/-- Model of `endSession`: show the setup screen again; counters are
untouched. -/
def endSession (st : SessionState) : SessionState :=
  { st with mode := Mode.setup }

/-- Model of `startQuiz`.  With no category selected it returns
unchanged (transient toast).  Otherwise it builds the pool, clamps the
requested count to at least 1, and takes a prefix of the shuffled pool
as the session; if that is empty it returns with only the (empty)
session list written — score, streak, best and mode untouched, another
transient toast.  On success it zeroes score and streak, keeps the best
streak, and enters the quiz at index −1 (the subsequent `nextQuestion`
call is outside this model). -/
def startQuiz (ρ : PoolRand) (rs : Nat → Nat) (rawData : List (String × List Item))
    (selected : List String) (requested : Int) (st : SessionState) : SessionState :=
  if selected.isEmpty then st
  else
    let pool := buildQuestionPool ρ rawData selected
    let n : Int := max 1 requested
    let sess := (shuffleArray rs pool).take n.toNat
    if sess.isEmpty then { st with session := sess }
    else
      { mode := Mode.inProgress
        score := 0
        streak := 0
        best := st.best
        session := sess
        index := -1 }

/-! ### Spec-side predicates (stated from the specification's words, for
comparison against the source-derived functions) -/

/-- Spec-side predicate: `t` equals `s` with exactly one character
inserted at some position. -/
def InsertedOne (s t : List Char) : Prop :=
  ∃ u c v, s = u ++ v ∧ t = u ++ c :: v

/-- Spec-side predicate: the restricted single-operation distance-1
model — equal lengths with exactly one differing position (single
substitution), or lengths differing by one with the longer equal to the
shorter plus one inserted character (single insertion/deletion). -/
def OneEditSpec (x y : List Char) : Prop :=
  (x.length = y.length ∧ diffCount x y = 1)
    ∨ (y.length = x.length + 1 ∧ InsertedOne x y)
    ∨ (x.length = y.length + 1 ∧ InsertedOne y x)

/-! ### Lemmas about the fuzzy matcher -/

theorem scanIns_true_iff_eq :
    ∀ (s t : List Char), s.length = t.length → (scanIns s t true = true ↔ s = t) := by
  intro s
  induction s with
  | nil =>
    intro t h
    cases t with
    | nil => simp [scanIns]
    | cons b t => simp at h
  | cons a s ih =>
    intro t h
    cases t with
    | nil => simp at h
    | cons b t =>
      have ht : s.length = t.length := by simpa using h
      by_cases hab : a = b
      · subst hab
        simpa [scanIns] using ih t ht
      · simp [scanIns, hab]

theorem scanIns_false_iff_insert :
    ∀ (s t : List Char), t.length = s.length + 1 →
      (scanIns s t false = true ↔ InsertedOne s t) := by
  intro s
  induction s with
  | nil =>
    intro t h
    match t, h with
    | [b], _ =>
      constructor
      · intro _
        exact ⟨[], b, [], rfl, rfl⟩
      · intro _
        rfl
  | cons a s ih =>
    intro t h
    match t, h with
    | b :: t, h =>
      have ht : t.length = s.length + 1 := by simpa using h
      by_cases hab : a = b
      · subst hab
        have hstep : scanIns (a :: s) (a :: t) false = scanIns s t false := by
          simp [scanIns]
        rw [hstep, ih t ht]
        constructor
        · rintro ⟨u, c, v, hs, htEq⟩
          exact ⟨a :: u, c, v, by simp [hs], by simp [htEq]⟩
        · rintro ⟨u, c, v, hs, htEq⟩
          cases u with
          | nil =>
            simp only [List.nil_append] at hs
            simp only [List.nil_append, List.cons.injEq] at htEq
            exact ⟨[], a, s, rfl, by rw [htEq.2, ← hs]; rfl⟩
          | cons u0 u =>
            simp only [List.cons_append, List.cons.injEq] at hs htEq
            exact ⟨u, c, v, hs.2, htEq.2⟩
      · have hstep : scanIns (a :: s) (b :: t) false = scanIns (a :: s) t true := by
          simp [scanIns, hab]
        rw [hstep, scanIns_true_iff_eq (a :: s) t (by simpa using ht.symm)]
        constructor
        · intro heq
          exact ⟨[], b, a :: s, rfl, by rw [List.nil_append, heq]⟩
        · rintro ⟨u, c, v, hs, htEq⟩
          cases u with
          | nil =>
            simp only [List.nil_append] at hs
            simp only [List.nil_append, List.cons.injEq] at htEq
            rw [htEq.2]
            exact hs
          | cons u0 u =>
            simp only [List.cons_append, List.cons.injEq] at hs htEq
            exact absurd (hs.1.trans htEq.1.symm) hab

theorem diffCount_eq_zero_iff :
    ∀ (s t : List Char), s.length = t.length → (diffCount s t = 0 ↔ s = t) := by
  intro s
  induction s with
  | nil =>
    intro t h
    cases t with
    | nil => simp [diffCount]
    | cons b t => simp at h
  | cons a s ih =>
    intro t h
    cases t with
    | nil => simp at h
    | cons b t =>
      have ht : s.length = t.length := by simpa using h
      by_cases hab : a = b
      · subst hab
        simpa [diffCount] using ih t ht
      · simp [diffCount, hab]

theorem isEditDistanceAtMostOne_iff (x y : List Char) :
    isEditDistanceAtMostOne x y = true ↔
      ((x.length = y.length ∧ diffCount x y ≤ 1)
        ∨ (y.length = x.length + 1 ∧ InsertedOne x y)
        ∨ (x.length = y.length + 1 ∧ InsertedOne y x)) := by
  unfold isEditDistanceAtMostOne
  by_cases hgap : x.length + 1 < y.length ∨ y.length + 1 < x.length
  · have hb : (decide (x.length + 1 < y.length) || decide (y.length + 1 < x.length)) = true := by
      rcases hgap with h | h <;> simp [h]
    rw [if_pos hb]
    constructor
    · intro hfalse
      cases hfalse
    · rintro (⟨hl, _⟩ | ⟨hl, _⟩ | ⟨hl, _⟩) <;> omega
  · have hb : (decide (x.length + 1 < y.length) || decide (y.length + 1 < x.length)) = false := by
      push_neg at hgap
      simp [Nat.not_lt.mpr hgap.1, Nat.not_lt.mpr hgap.2]
    rw [if_neg (by simp [hb])]
    push_neg at hgap
    by_cases heq : x.length = y.length
    · rw [if_pos heq]
      constructor
      · intro hd
        exact Or.inl ⟨heq, by simpa using hd⟩
      · rintro (⟨_, hd⟩ | ⟨hl, _⟩ | ⟨hl, _⟩)
        · exact decide_eq_true hd
        · omega
        · omega
    · rw [if_neg heq]
      by_cases hlt : y.length < x.length
      · have hx : x.length = y.length + 1 := by omega
        rw [if_pos hlt, scanIns_false_iff_insert y x hx]
        constructor
        · intro hins
          exact Or.inr (Or.inr ⟨hx, hins⟩)
        · rintro (⟨hl, _⟩ | ⟨hl, _⟩ | ⟨_, hins⟩)
          · omega
          · omega
          · exact hins
      · have hy : y.length = x.length + 1 := by omega
        rw [if_neg hlt, scanIns_false_iff_insert x y hy]
        constructor
        · intro hins
          exact Or.inr (Or.inl ⟨hy, hins⟩)
        · rintro (⟨hl, _⟩ | ⟨_, hins⟩ | ⟨hl, _⟩)
          · omega
          · exact hins
          · omega

theorem isEdit_iff_oneEdit_of_ne {x y : List Char} (hne : x ≠ y) :
    isEditDistanceAtMostOne x y = true ↔ OneEditSpec x y := by
  rw [isEditDistanceAtMostOne_iff]
  unfold OneEditSpec
  constructor
  · rintro (⟨hl, hd⟩ | h | h)
    · refine Or.inl ⟨hl, ?_⟩
      have h0 : diffCount x y ≠ 0 := fun h0 => hne ((diffCount_eq_zero_iff x y hl).mp h0)
      omega
    · exact Or.inr (Or.inl h)
    · exact Or.inr (Or.inr h)
  · rintro (⟨hl, hd⟩ | h | h)
    · exact Or.inl ⟨hl, by omega⟩
    · exact Or.inr (Or.inl h)
    · exact Or.inr (Or.inr h)

/-- C2: `compareAnswers` first normalizes both sides (trim, lower-case,
decompose and strip combining marks) and returns `exact` exactly when
the normalized strings are identical; returns `fuzzy` exactly when they
differ and are one substitution or one insertion/deletion apart under
the restricted single-operation model; and returns no-match in every
other case — in particular whenever the normalized lengths differ by
more than 1, and for the transposition `compare("Zerba","Zebra")`. -/
theorem claim_C2 :
    (∀ a b : List Char,
      (compareAnswers a b = Cmp.exact ↔ normalizeForCompare a = normalizeForCompare b)
      ∧ (compareAnswers a b = Cmp.fuzzy ↔
          normalizeForCompare a ≠ normalizeForCompare b
            ∧ OneEditSpec (normalizeForCompare a) (normalizeForCompare b))
      ∧ (compareAnswers a b = Cmp.no ↔
          normalizeForCompare a ≠ normalizeForCompare b
            ∧ ¬ OneEditSpec (normalizeForCompare a) (normalizeForCompare b))
      ∧ ((normalizeForCompare a).length + 1 < (normalizeForCompare b).length
            ∨ (normalizeForCompare b).length + 1 < (normalizeForCompare a).length →
          compareAnswers a b = Cmp.no))
    ∧ compareAnswers "Zerba".toList "Zebra".toList = Cmp.no := by
  constructor
  · intro a b
    by_cases hxy : normalizeForCompare a = normalizeForCompare b
    · have hres : compareAnswers a b = Cmp.exact := by
        unfold compareAnswers
        rw [if_pos hxy]
      refine ⟨by simp [hres, hxy], ?_, ?_, ?_⟩
      · constructor
        · intro hfz
          rw [hres] at hfz
          exact absurd hfz (by decide)
        · rintro ⟨hne, -⟩
          exact absurd hxy hne
      · constructor
        · intro hno
          rw [hres] at hno
          exact absurd hno (by decide)
        · rintro ⟨hne, -⟩
          exact absurd hxy hne
      · intro hgap
        rw [hxy] at hgap
        omega
    · by_cases he : isEditDistanceAtMostOne (normalizeForCompare a) (normalizeForCompare b) = true
      · have hres : compareAnswers a b = Cmp.fuzzy := by
          unfold compareAnswers
          rw [if_neg hxy, if_pos he]
        refine ⟨by simp [hres, hxy], ?_, ?_, ?_⟩
        · refine ⟨fun _ => ⟨hxy, (isEdit_iff_oneEdit_of_ne hxy).mp he⟩, fun _ => hres⟩
        · constructor
          · intro hno
            rw [hres] at hno
            exact absurd hno (by decide)
          · intro hrhs
            exact absurd ((isEdit_iff_oneEdit_of_ne hxy).mp he) hrhs.2
        · intro hgap
          exfalso
          rcases (isEditDistanceAtMostOne_iff _ _).mp he with ⟨hl, _⟩ | ⟨hl, _⟩ | ⟨hl, _⟩ <;>
            omega
      · have hres : compareAnswers a b = Cmp.no := by
          unfold compareAnswers
          rw [if_neg hxy, if_neg he]
        refine ⟨by simp [hres, hxy], ?_, ?_, fun _ => hres⟩
        · constructor
          · intro hfz
            rw [hres] at hfz
            exact absurd hfz (by decide)
          · intro hrhs
            exact absurd ((isEdit_iff_oneEdit_of_ne hxy).mpr hrhs.2) he
        · exact ⟨fun _ => ⟨hxy, fun hone => he ((isEdit_iff_oneEdit_of_ne hxy).mpr hone)⟩,
            fun _ => hres⟩
  · decide

/-- Witness for C2 at concrete inputs: the normalized lengths of
`"Giraffe"` and `"Zebra"` differ by more than one, so the comparison
reports no-match. -/
theorem claim_C2_witness :
    compareAnswers "Giraffe".toList "Zebra".toList = Cmp.no :=
  (claim_C2.1 "Giraffe".toList "Zebra".toList).2.2.2 (by decide)

/-! ### The shuffle is a permutation -/

theorem set_get_self {α : Type} :
    ∀ (l : List α) (i : Nat) (h : i < l.length), l.set i (l.get ⟨i, h⟩) = l
  | _ :: _, 0, _ => rfl
  | a :: t, i + 1, h =>
    congrArg (a :: ·) (set_get_self t i (Nat.lt_of_succ_lt_succ h))

theorem get_cons_set_perm {α : Type} (a : α) :
    ∀ (t : List α) (k : Nat) (h : k < t.length),
      List.Perm (t.get ⟨k, h⟩ :: t.set k a) (a :: t)
  | b :: t, 0, _ => List.Perm.swap a b t
  | b :: t, k + 1, h => by
    have hk : k < t.length := Nat.lt_of_succ_lt_succ h
    have step1 : (b :: t).get ⟨k + 1, h⟩ :: (b :: t).set (k + 1) a
        = t.get ⟨k, hk⟩ :: b :: t.set k a := rfl
    rw [step1]
    exact ((List.Perm.swap b (t.get ⟨k, hk⟩) (t.set k a)).trans
      ((get_cons_set_perm a t k hk).cons b)).trans (List.Perm.swap a b t)

theorem set_set_swap_perm_lt {α : Type} :
    ∀ (l : List α) (i j : Nat) (hij : i < j) (hj : j < l.length),
      List.Perm ((l.set i (l.get ⟨j, hj⟩)).set j (l.get ⟨i, Nat.lt_trans hij hj⟩)) l
  | a :: t, 0, j + 1, _, hj => by
    have hk : j < t.length := Nat.lt_of_succ_lt_succ hj
    have step1 : ((a :: t).set 0 ((a :: t).get ⟨j + 1, hj⟩)).set (j + 1)
          ((a :: t).get ⟨0, Nat.lt_trans (by omega) hj⟩)
        = t.get ⟨j, hk⟩ :: t.set j a := rfl
    rw [step1]
    exact get_cons_set_perm a t j hk
  | a :: t, i + 1, j + 1, hij, hj => by
    have hij' : i < j := Nat.lt_of_succ_lt_succ hij
    have hj' : j < t.length := Nat.lt_of_succ_lt_succ hj
    have step1 : ((a :: t).set (i + 1) ((a :: t).get ⟨j + 1, hj⟩)).set (j + 1)
          ((a :: t).get ⟨i + 1, Nat.lt_trans hij hj⟩)
        = a :: ((t.set i (t.get ⟨j, hj'⟩)).set j (t.get ⟨i, Nat.lt_trans hij' hj'⟩)) := rfl
    rw [step1]
    exact (set_set_swap_perm_lt t i j hij' hj').cons a

theorem listSwap_perm {α : Type} (l : List α) (i j : Nat) : List.Perm (listSwap l i j) l := by
  unfold listSwap
  cases hi : l.get? i with
  | none => exact List.Perm.refl l
  | some a =>
    cases hj : l.get? j with
    | none => exact List.Perm.refl l
    | some b =>
      obtain ⟨hilt, hia⟩ := List.get?_eq_some.mp hi
      obtain ⟨hjlt, hjb⟩ := List.get?_eq_some.mp hj
      subst hia
      subst hjb
      show ((l.set i (l.get ⟨j, hjlt⟩)).set j (l.get ⟨i, hilt⟩)).Perm l
      rcases Nat.lt_trichotomy i j with hlt | heq | hgt
      · exact set_set_swap_perm_lt l i j hlt hjlt
      · subst heq
        rw [List.set_set, set_get_self]
      · rw [List.set_comm _ _ _ (Nat.ne_of_gt hgt)]
        exact set_set_swap_perm_lt l j i hgt hilt

theorem fyAux_perm {α : Type} (r : Nat → Nat) :
    ∀ (n : Nat) (l : List α), List.Perm (fyAux r n l) l
  | 0, l => List.Perm.refl l
  | n + 1, l =>
    (fyAux_perm r n (listSwap l (n + 1) (r (n + 1) % (n + 2)))).trans
      (listSwap_perm l (n + 1) (r (n + 1) % (n + 2)))

theorem shuffleArray_perm {α : Type} (r : Nat → Nat) (l : List α) :
    List.Perm (shuffleArray r l) l :=
  fyAux_perm r (l.length - 1) l

/-! ### Deduplication lemmas -/

theorem dedupByAux_cons {α κ : Type} [DecidableEq κ] (key : α → κ) (seen : List κ)
    (q : α) (l : List α) :
    dedupByAux key seen (q :: l) =
      if key q ∈ seen then dedupByAux key seen l
      else q :: dedupByAux key (key q :: seen) l := rfl

theorem dedupByAux_sublist {α κ : Type} [DecidableEq κ] (key : α → κ) :
    ∀ (l : List α) (seen : List κ), List.Sublist (dedupByAux key seen l) l
  | [], _ => List.nil_sublist []
  | q :: l, seen => by
    unfold dedupByAux
    by_cases h : key q ∈ seen
    · rw [if_pos h]
      exact (dedupByAux_sublist key l seen).cons q
    · rw [if_neg h]
      exact (dedupByAux_sublist key l (key q :: seen)).cons₂ q

theorem mem_map_key_dedupByAux {α κ : Type} [DecidableEq κ] (key : α → κ) :
    ∀ (l : List α) (seen : List κ) (k : κ),
      k ∈ (dedupByAux key seen l).map key ↔ k ∈ l.map key ∧ k ∉ seen := by
  intro l
  induction l with
  | nil =>
    intro seen k
    simp [dedupByAux]
  | cons q l ih =>
    intro seen k
    unfold dedupByAux
    by_cases h : key q ∈ seen
    · rw [if_pos h, ih seen k, List.map_cons]
      constructor
      · rintro ⟨hm, hns⟩
        exact ⟨List.mem_cons_of_mem _ hm, hns⟩
      · rintro ⟨hor, hns⟩
        rcases List.mem_cons.mp hor with heq | hm'
        · exact absurd (fun hk => hns (heq ▸ h)) (fun hf => hf trivial)
        · exact ⟨hm', hns⟩
    · rw [if_neg h, List.map_cons, List.map_cons]
      constructor
      · intro hm
        rcases List.mem_cons.mp hm with heq | hm'
        · refine ⟨by rw [heq]; exact List.mem_cons_self _ _, fun hk => h (heq ▸ hk)⟩
        · obtain ⟨hml, hnseen⟩ := (ih (key q :: seen) k).mp hm'
          exact ⟨List.mem_cons_of_mem _ hml, fun hk => hnseen (List.mem_cons_of_mem _ hk)⟩
      · rintro ⟨hor, hns⟩
        by_cases hkq : k = key q
        · rw [hkq]
          exact List.mem_cons_self _ _
        · rcases List.mem_cons.mp hor with heq | hm'
          · exact absurd heq hkq
          · refine List.mem_cons_of_mem _ ((ih (key q :: seen) k).mpr ⟨hm', ?_⟩)
            intro hk
            rcases List.mem_cons.mp hk with h1 | h2
            · exact hkq h1
            · exact hns h2

theorem nodup_map_key_dedupByAux {α κ : Type} [DecidableEq κ] (key : α → κ) :
    ∀ (l : List α) (seen : List κ), ((dedupByAux key seen l).map key).Nodup := by
  intro l
  induction l with
  | nil => intro seen; simp [dedupByAux]
  | cons q l ih =>
    intro seen
    unfold dedupByAux
    by_cases h : key q ∈ seen
    · rw [if_pos h]
      exact ih seen
    · rw [if_neg h, List.map_cons, List.nodup_cons]
      refine ⟨?_, ih (key q :: seen)⟩
      intro hmem
      exact ((mem_map_key_dedupByAux key l (key q :: seen) (key q)).mp hmem).2
        (List.mem_cons_self _ _)

theorem dedupByAux_eq_self {α κ : Type} [DecidableEq κ] (key : α → κ) :
    ∀ (l : List α) (seen : List κ), (l.map key).Nodup → (∀ k ∈ l.map key, k ∉ seen) →
      dedupByAux key seen l = l := by
  intro l
  induction l with
  | nil => intro seen _ _; rfl
  | cons q l ih =>
    intro seen hnd hout
    unfold dedupByAux
    rw [List.map_cons, List.nodup_cons] at hnd
    rw [if_neg (hout (key q) (by simp))]
    congr 1
    refine ih (key q :: seen) hnd.2 ?_
    intro k hk
    intro hmem
    rcases List.mem_cons.mp hmem with heq | hseen
    · exact hnd.1 (heq ▸ hk)
    · exact hout k (List.mem_cons_of_mem _ hk) hseen

theorem dedupByAux_seen_congr {α κ : Type} [DecidableEq κ] (key : α → κ) :
    ∀ (l : List α) (seen₁ seen₂ : List κ), (∀ k, k ∈ seen₁ ↔ k ∈ seen₂) →
      dedupByAux key seen₁ l = dedupByAux key seen₂ l := by
  intro l
  induction l with
  | nil => intro _ _ _; rfl
  | cons q l ih =>
    intro seen₁ seen₂ hiff
    unfold dedupByAux
    by_cases h : key q ∈ seen₁
    · rw [if_pos h, if_pos ((hiff (key q)).mp h)]
      exact ih seen₁ seen₂ hiff
    · rw [if_neg h, if_neg (fun hm => h ((hiff (key q)).mpr hm))]
      congr 1
      refine ih (key q :: seen₁) (key q :: seen₂) ?_
      intro k
      simp only [List.mem_cons]
      exact or_congr Iff.rfl (hiff k)

theorem dedupByAux_cons_key {α κ : Type} [DecidableEq κ] (key : α → κ) :
    ∀ (l : List α) (k : κ) (seen : List κ),
      dedupByAux key (k :: seen) l
        = dedupByAux key seen (l.filter fun x => decide (key x ≠ k)) := by
  intro l
  induction l with
  | nil => intro _ _; rfl
  | cons q l ih =>
    intro k seen
    by_cases hqk : key q = k
    · have hfq : (decide (key q ≠ k)) = false := by simp [hqk]
      rw [List.filter_cons, hfq]
      simp only [Bool.false_eq_true, if_false]
      rw [dedupByAux_cons, if_pos (by simp [hqk])]
      exact ih k seen
    · have hfq : (decide (key q ≠ k)) = true := by simp [hqk]
      rw [List.filter_cons, hfq]
      simp only [if_true]
      by_cases hqs : key q ∈ seen
      · rw [dedupByAux_cons, if_pos (List.mem_cons_of_mem _ hqs),
          dedupByAux_cons, if_pos hqs]
        exact ih k seen
      · rw [dedupByAux_cons, if_neg (by simp [hqk, hqs]),
          dedupByAux_cons, if_neg hqs]
        congr 1
        rw [dedupByAux_seen_congr key l (key q :: k :: seen) (k :: key q :: seen)
          (by intro x; simp only [List.mem_cons]; tauto)]
        exact ih k (key q :: seen)

/-- C10: `dedupeQuestions` returns a subsequence of its input keeping the
first occurrence of each dedup signature: no two output questions share a
signature, every input question's signature appears in the output, and
the function is idempotent. -/
theorem claim_C10 (l : List Question) :
    List.Sublist (dedupeQuestions l) l
    ∧ ((dedupeQuestions l).map dedupKey).Nodup
    ∧ (∀ q ∈ l, dedupKey q ∈ (dedupeQuestions l).map dedupKey)
    ∧ dedupeQuestions (dedupeQuestions l) = dedupeQuestions l
    ∧ (∀ (q : Question) (qs : List Question),
        dedupeQuestions (q :: qs)
          = q :: dedupeQuestions (qs.filter fun x => decide (dedupKey x ≠ dedupKey q))) := by
  refine ⟨dedupByAux_sublist dedupKey l [], nodup_map_key_dedupByAux dedupKey l [], ?_, ?_, ?_⟩
  · intro q hq
    refine (mem_map_key_dedupByAux dedupKey l [] (dedupKey q)).mpr ⟨?_, by simp⟩
    exact List.mem_map_of_mem dedupKey hq
  · exact dedupByAux_eq_self dedupKey (dedupeQuestions l) []
      (nodup_map_key_dedupByAux dedupKey l []) (by simp)
  · intro q qs
    show dedupByAux dedupKey [] (q :: qs) = _
    unfold dedupByAux
    rw [if_neg (List.not_mem_nil _)]
    congr 1
    exact dedupByAux_cons_key dedupKey qs (dedupKey q) []

/-- Witness for C10 at a concrete list: a duplicated question is kept
once, and its signature survives into the output. -/
theorem claim_C10_witness :
    dedupKey (Question.propToName "m" "p" "v" "n" ⟨"n", none, none, []⟩)
      ∈ (dedupeQuestions [Question.propToName "m" "p" "v" "n" ⟨"n", none, none, []⟩,
          Question.propToName "m" "p" "v" "n" ⟨"n", none, none, []⟩]).map dedupKey :=
  (claim_C10 [Question.propToName "m" "p" "v" "n" ⟨"n", none, none, []⟩,
      Question.propToName "m" "p" "v" "n" ⟨"n", none, none, []⟩]).2.2.1
    (Question.propToName "m" "p" "v" "n" ⟨"n", none, none, []⟩) (by simp)

/-! ### Combination search lemmas -/

theorem length_combinations {α : Type} :
    ∀ (l : List α) (k : Nat), (combinations l k).length = Nat.choose l.length k
  | _, 0 => by simp [combinations]
  | [], k + 1 => by simp [combinations]
  | a :: l, k + 1 => by
    simp only [combinations, List.length_append, List.length_map,
      length_combinations l k, length_combinations l (k + 1), List.length_cons]
    rw [Nat.choose_succ_succ]

theorem mem_combinations_length {α : Type} :
    ∀ (l : List α) (k : Nat) (c : List α), c ∈ combinations l k → c.length = k := by
  intro l
  induction l with
  | nil =>
    intro k c hc
    cases k with
    | zero =>
      simp only [combinations, List.mem_singleton] at hc
      simp [hc]
    | succ k => cases hc
  | cons a l ih =>
    intro k c hc
    cases k with
    | zero =>
      simp only [combinations, List.mem_singleton] at hc
      simp [hc]
    | succ k =>
      rcases List.mem_append.mp hc with hl | hr
      · obtain ⟨c', hc', rfl⟩ := List.mem_map.mp hl
        simp [ih k c' hc']
      · exact ih (k + 1) c hr

theorem combinations_eq_nil {α : Type} (l : List α) (k : Nat) (h : l.length < k) :
    combinations l k = [] := by
  have hlen : (combinations l k).length = 0 := by
    rw [length_combinations, Nat.choose_eq_zero_of_lt h]
  exact List.eq_nil_of_length_eq_zero hlen

theorem mem_combinations_le {α : Type} {l : List α} {k : Nat} {c : List α}
    (h : c ∈ combinations l k) : k ≤ l.length := by
  by_contra hlt
  rw [combinations_eq_nil l k (by omega)] at h
  exact absurd h (List.not_mem_nil c)

theorem findSome?_cons_or {α β : Type} (f : α → Option β) (a : α) (l : List α) :
    (a :: l).findSome? f = (f a).or (l.findSome? f) := by
  cases h : f a with
  | none =>
    rw [List.findSome?_cons_of_isNone _ (by simp [h])]
    rfl
  | some b =>
    rw [List.findSome?_cons_of_isSome _ (by simp [h]), h]
    rfl

theorem findSome?_flatMap {α β γ : Type} (l : List α) (g : α → List β) (f : β → Option γ) :
    (l.flatMap g).findSome? f = l.findSome? fun a => (g a).findSome? f := by
  induction l with
  | nil => rfl
  | cons a l ih =>
    rw [List.flatMap_cons, List.findSome?_append, findSome?_cons_or, ih]

theorem comboCheck_eq_some {item : Item} {items : List Item} {combo : List String} {c : Combo}
    (h : comboCheck item items combo = some c) :
    c.properties = combo ∧ tupleOf item combo = some c.valueTuple
      ∧ matchCount items combo c.valueTuple = 1 := by
  unfold comboCheck at h
  split at h
  · exact Option.noConfusion h
  · rename_i tuple htup
    split at h
    · rename_i hm
      cases h
      exact ⟨rfl, htup, hm⟩
    · exact Option.noConfusion h

theorem findUnique_eq_findSome? (item : Item) (items : List Item) (allProps : List String) :
    findUniquePropertyCombo item items allProps 3 2
      = (combinations allProps 2 ++ combinations allProps 3).findSome?
          (comboCheck item items) := by
  unfold findUniquePropertyCombo
  rw [← findSome?_flatMap]
  congr 1
  rcases Nat.lt_or_ge allProps.length 2 with h2 | h2
  · have e1 : min 3 allProps.length + 1 - 2 = 0 := by omega
    rw [e1, combinations_eq_nil allProps 2 (by omega),
      combinations_eq_nil allProps 3 (by omega)]
    rfl
  · rcases Nat.lt_or_ge allProps.length 3 with h3 | h3
    · have e1 : min 3 allProps.length + 1 - 2 = 1 := by omega
      rw [e1, combinations_eq_nil allProps 3 (by omega)]
      show ([2] : List Nat).flatMap (combinations allProps) = combinations allProps 2 ++ []
      rw [List.flatMap_cons, List.flatMap_nil]
    · have e1 : min 3 allProps.length + 1 - 2 = 2 := by omega
      rw [e1]
      show ([2, 3] : List Nat).flatMap (combinations allProps)
        = combinations allProps 2 ++ combinations allProps 3
      rw [List.flatMap_cons, List.flatMap_cons, List.flatMap_nil, List.append_nil]

/-- C1: the combination search examines exactly the size-2 subsets
followed by the size-3 subsets in the source's fixed enumeration order
(so never a size outside 2..3 or above the property count — the subset
lists enumerate `C(n, k)` subsets and are empty beyond `n`), skips
subsets where the item lacks a value, and returns the first subset whose
value tuple is matched by exactly one item; when no size-2 or size-3
subset qualifies it returns nothing, and when some size-2 subset
qualifies the returned combination has exactly 2 properties. -/
theorem claim_C1 (item : Item) (items : List Item) (allProps : List String) :
    (findUniquePropertyCombo item items allProps 3 2
        = (combinations allProps 2 ++ combinations allProps 3).findSome?
            (comboCheck item items))
    ∧ (∀ k : Nat, (combinations allProps k).length = Nat.choose allProps.length k)
    ∧ (∀ c : Combo, findUniquePropertyCombo item items allProps 3 2 = some c →
        (c.properties.length = 2 ∨ c.properties.length = 3)
        ∧ c.properties.length ≤ allProps.length
        ∧ tupleOf item c.properties = some c.valueTuple
        ∧ matchCount items c.properties c.valueTuple = 1)
    ∧ ((∃ combo ∈ combinations allProps 2, (comboCheck item items combo).isSome) →
        ∀ c : Combo, findUniquePropertyCombo item items allProps 3 2 = some c →
          c.properties.length = 2)
    ∧ ((∀ combo ∈ combinations allProps 2 ++ combinations allProps 3,
          comboCheck item items combo = none) →
        findUniquePropertyCombo item items allProps 3 2 = none) := by
  refine ⟨findUnique_eq_findSome? item items allProps,
    fun k => length_combinations allProps k, ?_, ?_, ?_⟩
  · intro c hres
    rw [findUnique_eq_findSome? item items allProps] at hres
    obtain ⟨combo, hmem, hchk⟩ := List.exists_of_findSome?_eq_some hres
    obtain ⟨hp, htup, hcnt⟩ := comboCheck_eq_some hchk
    subst hp
    rcases List.mem_append.mp hmem with hm | hm
    · exact ⟨Or.inl (mem_combinations_length _ _ _ hm),
        (mem_combinations_length _ _ _ hm) ▸ mem_combinations_le hm, htup, hcnt⟩
    · exact ⟨Or.inr (mem_combinations_length _ _ _ hm),
        (mem_combinations_length _ _ _ hm) ▸ mem_combinations_le hm, htup, hcnt⟩
  · intro hEx c hres
    rw [findUnique_eq_findSome? item items allProps, List.findSome?_append] at hres
    have h2s : ((combinations allProps 2).findSome? (comboCheck item items)).isSome :=
      List.findSome?_isSome_iff.mpr hEx
    cases hsome : (combinations allProps 2).findSome? (comboCheck item items) with
    | none => rw [hsome] at h2s; cases h2s
    | some c0 =>
      rw [hsome] at hres
      have hcc : c0 = c := by
        have : some c0 = some c := hres
        exact Option.some.inj this
      subst hcc
      obtain ⟨combo, hmem, hchk⟩ := List.exists_of_findSome?_eq_some hsome
      obtain ⟨hp, -, -⟩ := comboCheck_eq_some hchk
      rw [hp]
      exact mem_combinations_length _ _ _ hmem
  · intro hall
    rw [findUnique_eq_findSome? item items allProps]
    exact List.findSome?_eq_none_iff.mpr hall

/-- Witness for C1 on a planted dataset: item `A` is uniquely identified
by the pair `(a, b)` (each single property is shared), so the search
returns exactly that 2-property combination. -/
theorem claim_C1_witness :
    findUniquePropertyCombo ⟨"A", none, none, [("a", JVal.num 1), ("b", JVal.num 1)]⟩
        [⟨"A", none, none, [("a", JVal.num 1), ("b", JVal.num 1)]⟩,
         ⟨"B", none, none, [("a", JVal.num 1), ("b", JVal.num 2)]⟩,
         ⟨"C", none, none, [("a", JVal.num 2), ("b", JVal.num 1)]⟩]
        ["a", "b"] 3 2
      = some ⟨["a", "b"], [JVal.num 1, JVal.num 1]⟩
    ∧ (⟨["a", "b"], [JVal.num 1, JVal.num 1]⟩ : Combo).properties.length = 2 :=
  ⟨by decide,
    (claim_C1 ⟨"A", none, none, [("a", JVal.num 1), ("b", JVal.num 1)]⟩
        [⟨"A", none, none, [("a", JVal.num 1), ("b", JVal.num 1)]⟩,
         ⟨"B", none, none, [("a", JVal.num 1), ("b", JVal.num 2)]⟩,
         ⟨"C", none, none, [("a", JVal.num 2), ("b", JVal.num 1)]⟩]
        ["a", "b"]).2.2.2.1 (by decide) ⟨["a", "b"], [JVal.num 1, JVal.num 1]⟩ (by decide)⟩

/-! ### First-occurrence dedup lemmas -/

theorem mem_dedupFirst {α : Type} [DecidableEq α] (l : List α) (a : α) :
    a ∈ dedupFirst l ↔ a ∈ l := by
  have h := mem_map_key_dedupByAux (id : α → α) l [] a
  simpa [dedupFirst] using h

theorem nodup_dedupFirst {α : Type} [DecidableEq α] (l : List α) :
    (dedupFirst l).Nodup := by
  have h := nodup_map_key_dedupByAux (id : α → α) l []
  simpa [dedupFirst] using h

theorem length_dedupFirst {α : Type} [DecidableEq α] (l : List α) :
    (dedupFirst l).length = l.toFinset.card := by
  have hfin : (dedupFirst l).toFinset = l.toFinset := by
    apply Finset.ext
    intro a
    simp [List.mem_toFinset, mem_dedupFirst]
  rw [← hfin, List.toFinset_card_of_nodup (nodup_dedupFirst l)]

/-! ### Distractor picking lemmas -/

theorem pick_core {α : Type} [DecidableEq α] (r₁ r₂ : Nat → Nat) (others : List α)
    (correct : α) (k : Nat) (hnd : others.Nodup) (hnc : correct ∉ others) :
    (shuffleArray r₂ ((shuffleArray r₁ others).take k ++ [correct])).count correct = 1
    ∧ (shuffleArray r₂ ((shuffleArray r₁ others).take k ++ [correct])).Nodup
    ∧ (shuffleArray r₂ ((shuffleArray r₁ others).take k ++ [correct])).length
        = min k others.length + 1 := by
  have perm1 := shuffleArray_perm r₁ others
  have perm2 := shuffleArray_perm r₂ ((shuffleArray r₁ others).take k ++ [correct])
  have hnd1 : (shuffleArray r₁ others).Nodup := (perm1.nodup_iff).mpr hnd
  have htake : List.Sublist ((shuffleArray r₁ others).take k) (shuffleArray r₁ others) :=
    List.take_sublist k _
  have hndt : ((shuffleArray r₁ others).take k).Nodup := htake.nodup hnd1
  have hnct : correct ∉ (shuffleArray r₁ others).take k := by
    intro hmem
    exact hnc (perm1.mem_iff.mp (htake.subset hmem))
  refine ⟨?_, ?_, ?_⟩
  · rw [perm2.count_eq, List.count_append, List.count_eq_zero.mpr hnct]
    simp
  · rw [perm2.nodup_iff]
    rw [List.nodup_append]
    refine ⟨hndt, List.nodup_singleton correct, ?_⟩
    intro x hx hx1
    rw [List.mem_singleton] at hx1
    exact hnct (hx1 ▸ hx)
  · rw [perm2.length_eq, List.length_append, List.length_take, perm1.length_eq]
    rfl

theorem filter_bne_length {α : Type} [DecidableEq α] :
    ∀ (l : List α) (a : α), l.Nodup → a ∈ l →
      (l.filter fun x => x != a).length + 1 = l.length := by
  intro l
  induction l with
  | nil =>
    intro a _ h
    cases h
  | cons b l ih =>
    intro a hnd hmem
    rw [List.nodup_cons] at hnd
    rcases List.mem_cons.mp hmem with heq | hm
    · have hbb : (b != a) = false := by simp [heq]
      rw [List.filter_cons, hbb]
      simp only [Bool.false_eq_true, if_false]
      rw [List.filter_eq_self.mpr ?_, List.length_cons]
      intro x hx
      simp only [bne_iff_ne, ne_eq, decide_eq_true_eq]
      intro hxa
      exact hnd.1 ((heq ▸ hxa) ▸ hx)
    · have hba : (b != a) = true := by
        simp only [bne_iff_ne, ne_eq, decide_eq_true_eq]
        intro hba
        exact hnd.1 (hba ▸ hm)
      rw [List.filter_cons, hba]
      simp only [if_true, List.length_cons]
      have := ih a hnd.2 hm
      omega

theorem pick_from_pool {α : Type} [DecidableEq α] (r₁ r₂ : Nat → Nat) (pool : List α)
    (correct : α) (hnd : pool.Nodup) (hc : correct ∈ pool) :
    (shuffleArray r₂
        ((shuffleArray r₁ (pool.filter fun x => x != correct)).take 3 ++ [correct])).count
        correct = 1
    ∧ (shuffleArray r₂
        ((shuffleArray r₁ (pool.filter fun x => x != correct)).take 3 ++ [correct])).Nodup
    ∧ (shuffleArray r₂
        ((shuffleArray r₁ (pool.filter fun x => x != correct)).take 3 ++ [correct])).length
        = min 4 pool.length := by
  have hndo : (pool.filter fun x => x != correct).Nodup := hnd.filter _
  have hnco : correct ∉ pool.filter fun x => x != correct := by
    intro hmem
    have := (List.mem_filter.mp hmem).2
    simp at this
  have hlen : (pool.filter fun x => x != correct).length + 1 = pool.length :=
    filter_bne_length pool correct hnd hc
  obtain ⟨h1, h2, h3⟩ := pick_core r₁ r₂ (pool.filter fun x => x != correct) correct 3 hndo hnco
  refine ⟨h1, h2, ?_⟩
  rw [h3]
  omega

/-- C4: for a category with pairwise-distinct item names containing the
correct name, `pickNameChoices` returns a duplicate-free list containing
the correct name exactly once, of length `min 4 (number of items)`;
likewise `pickPropertyChoices` for the distinct non-null values of the
property (`propertyVals`, whose length is the number of distinct
non-null values); short lists are accepted when fewer distractors
exist. -/
theorem claim_C4 (r₁ r₂ r₃ r₄ : Nat → Nat) (items : List Item) (correctName : String)
    (property : String) (correctValue : JVal) :
    ((items.map Item.name).Nodup → correctName ∈ items.map Item.name →
      (pickNameChoices r₁ r₂ items correctName 4).count correctName = 1
      ∧ (pickNameChoices r₁ r₂ items correctName 4).Nodup
      ∧ (pickNameChoices r₁ r₂ items correctName 4).length = min 4 items.length)
    ∧ (correctValue ∈ propertyVals items property →
      (pickPropertyChoices r₃ r₄ items property correctValue 4).count correctValue = 1
      ∧ (pickPropertyChoices r₃ r₄ items property correctValue 4).Nodup
      ∧ (pickPropertyChoices r₃ r₄ items property correctValue 4).length
          = min 4 (propertyVals items property).length)
    ∧ (propertyVals items property).Nodup
    ∧ (propertyVals items property).length
        = (items.filterMap fun it =>
            match getProp? it property with
            | none => none
            | some JVal.null => none
            | some v => some v).toFinset.card := by
  refine ⟨?_, ?_, nodup_dedupFirst _, length_dedupFirst _⟩
  · intro hnd hc
    have h := pick_from_pool r₁ r₂ (items.map Item.name) correctName hnd hc
    have he : pickNameChoices r₁ r₂ items correctName 4
        = shuffleArray r₂
            ((shuffleArray r₁
              ((items.map Item.name).filter fun x => x != correctName)).take 3
              ++ [correctName]) := rfl
    rw [he]
    exact ⟨h.1, h.2.1, by rw [h.2.2, List.length_map]⟩
  · intro hc
    have h := pick_from_pool r₃ r₄ (propertyVals items property) correctValue
      (nodup_dedupFirst _) hc
    have he : pickPropertyChoices r₃ r₄ items property correctValue 4
        = shuffleArray r₄
            ((shuffleArray r₃
              ((propertyVals items property).filter fun x => x != correctValue)).take 3
              ++ [correctValue]) := rfl
    rw [he]
    exact h

/-- Witness for C4 at a concrete three-item category: the returned name
list has the correct name once, no duplicates, and length `min 4 3`. -/
theorem claim_C4_witness :
    (pickNameChoices (fun _ => 0) (fun _ => 0)
        [⟨"A", none, none, []⟩, ⟨"B", none, none, []⟩, ⟨"C", none, none, []⟩] "B" 4).count "B" = 1
    ∧ (pickNameChoices (fun _ => 0) (fun _ => 0)
        [⟨"A", none, none, []⟩, ⟨"B", none, none, []⟩, ⟨"C", none, none, []⟩] "B" 4).Nodup
    ∧ (pickNameChoices (fun _ => 0) (fun _ => 0)
        [⟨"A", none, none, []⟩, ⟨"B", none, none, []⟩, ⟨"C", none, none, []⟩] "B" 4).length
        = min 4 3 :=
  (claim_C4 (fun _ => 0) (fun _ => 0) (fun _ => 0) (fun _ => 0)
      [⟨"A", none, none, []⟩, ⟨"B", none, none, []⟩, ⟨"C", none, none, []⟩] "B" "p"
      JVal.null).1 (by decide) (by decide)

/-! ### Session scoring -/

/-- C5: a correct answer increments score and streak and raises the best
streak exactly when the new streak exceeds it; a wrong answer keeps the
score and best and zeroes the streak; and no operation — wrong answers,
starting a session, or returning to setup — decreases the best streak. -/
theorem claim_C5 (st : SessionState) (ρ : PoolRand) (rs : Nat → Nat)
    (rawData : List (String × List Item)) (selected : List String) (requested : Int) :
    (handleCorrect st).score = st.score + 1
    ∧ (handleCorrect st).streak = st.streak + 1
    ∧ (st.streak + 1 > st.best → (handleCorrect st).best = st.streak + 1)
    ∧ (¬ st.streak + 1 > st.best → (handleCorrect st).best = st.best)
    ∧ (handleWrong st).score = st.score
    ∧ (handleWrong st).streak = 0
    ∧ (handleWrong st).best = st.best
    ∧ st.best ≤ (handleCorrect st).best
    ∧ st.best ≤ (handleWrong st).best
    ∧ st.best ≤ (startQuiz ρ rs rawData selected requested st).best
    ∧ (endSession st).best = st.best := by
  refine ⟨rfl, rfl, ?_, ?_, rfl, rfl, rfl, ?_, Nat.le_refl _, ?_, rfl⟩
  · intro h
    simp only [handleCorrect, if_pos h]
  · intro h
    simp only [handleCorrect, if_neg h]
  · show st.best ≤ if st.streak + 1 > st.best then st.streak + 1 else st.best
    split
    · omega
    · exact Nat.le_refl _
  · unfold startQuiz
    split
    · exact Nat.le_refl _
    · dsimp only
      split
      · exact Nat.le_refl _
      · exact Nat.le_refl _

/-- Witness for C5 at a concrete state with streak 2 equal to the best:
a correct answer raises the best streak to 3. -/
theorem claim_C5_witness :
    (handleCorrect ⟨Mode.setup, 0, 2, 2, [], -1⟩).best = 2 + 1 :=
  (claim_C5 ⟨Mode.setup, 0, 2, 2, [], -1⟩ ⟨fun _ => 0, fun _ _ => 0, fun _ _ => 0⟩
      (fun _ => 0) [] [] 0).2.2.1 (by decide)

/-! ### Image-question eligibility -/

/-- C9: a category with fewer than 2 imaged items generates no
name→image and no image→name questions; with 2 or more, each generation
loop emits exactly one question per imaged item (before
deduplication). -/
theorem claim_C9 (r r' : Nat → Nat) (cat : String) (items : List Item) :
    ((items.filter hasImages).length < 2 →
        nameToImageFacts r cat items = [] ∧ imageToNameFacts r' cat items = [])
    ∧ (2 ≤ (items.filter hasImages).length →
        (nameToImageFacts r cat items).map questionSrc = items.filter hasImages
        ∧ (imageToNameFacts r' cat items).map questionSrc = items.filter hasImages
        ∧ (nameToImageFacts r cat items).length = (items.filter hasImages).length
        ∧ (imageToNameFacts r' cat items).length = (items.filter hasImages).length) := by
  constructor
  · intro hlt
    constructor
    · unfold nameToImageFacts
      rw [if_neg (by omega)]
    · unfold imageToNameFacts
      rw [if_neg (by omega)]
  · intro hge
    have hsrc1 : (nameToImageFacts r cat items).map questionSrc = items.filter hasImages := by
      unfold nameToImageFacts
      rw [if_pos hge, List.map_map]
      exact List.enumFrom_map_snd 0 (items.filter hasImages)
    have hsrc2 : (imageToNameFacts r' cat items).map questionSrc = items.filter hasImages := by
      unfold imageToNameFacts
      rw [if_pos hge, List.map_map]
      exact List.enumFrom_map_snd 0 (items.filter hasImages)
    refine ⟨hsrc1, hsrc2, ?_, ?_⟩
    · have := congrArg List.length hsrc1
      rwa [List.length_map] at this
    · have := congrArg List.length hsrc2
      rwa [List.length_map] at this

/-- Witness for C9 on a category with exactly two imaged items (and one
without an image): both image loops emit one question per imaged
item. -/
theorem claim_C9_witness :
    (nameToImageFacts (fun _ => 0) "c"
        [⟨"A", some "a.png", none, []⟩, ⟨"N", none, none, []⟩,
         ⟨"B", none, some ["b1.png", "b2.png"], []⟩]).map questionSrc
      = [⟨"A", some "a.png", none, []⟩, ⟨"N", none, none, []⟩,
         ⟨"B", none, some ["b1.png", "b2.png"], []⟩].filter hasImages :=
  ((claim_C9 (fun _ => 0) (fun _ => 0) "c"
      [⟨"A", some "a.png", none, []⟩, ⟨"N", none, none, []⟩,
       ⟨"B", none, some ["b1.png", "b2.png"], []⟩]).2 (by decide)).1

/-! ### Single-property fact generation -/

/-- C3: the `property -> name` generation loop emits a question for
exactly those (property, value) pairs — the property drawn from the
first item's keys, the value from the stringified value index — whose
key is not the `'null'` sentinel and whose item list has length exactly
one; consequently every generated single-fact's pair is held by exactly
one item, and every such question is part of the category's generated
questions. -/
theorem claim_C3 (ρ : PoolRand) (cat : String) (items : List Item)
    (p val name : String) (src : Item) :
    (Question.propToName cat p val name src ∈ singleFacts cat items (allPropsOf items) ↔
      p ∈ allPropsOf items ∧ val ≠ "null" ∧ valueItems items p val = [src]
        ∧ name = src.name)
    ∧ (∀ (p' v' n' : String) (s' : Item),
        Question.propToName cat p' v' n' s' ∈ singleFacts cat items (allPropsOf items) →
        (valueItems items p' v').length = 1)
    ∧ (∀ q ∈ singleFacts cat items (allPropsOf items), q ∈ categoryQuestions ρ cat items) := by
  have hiff : ∀ (p val name : String) (src : Item),
      Question.propToName cat p val name src ∈ singleFacts cat items (allPropsOf items) ↔
        p ∈ allPropsOf items ∧ val ≠ "null" ∧ valueItems items p val = [src]
          ∧ name = src.name := by
    intro p val name src
    constructor
    · intro hmem
      unfold singleFacts at hmem
      rw [List.mem_flatMap] at hmem
      obtain ⟨p₀, hp₀, hmem⟩ := hmem
      rw [List.mem_filterMap] at hmem
      obtain ⟨val₀, hval₀, hf⟩ := hmem
      by_cases hnull : val₀ = "null"
      · rw [if_pos hnull] at hf
        cases hf
      · rw [if_neg hnull] at hf
        split at hf
        · rename_i one hone
          injection hf with hf
          simp only [Question.propToName.injEq] at hf
          obtain ⟨-, hpp, hvv, hnn, hss⟩ := hf
          subst hpp
          subst hvv
          subst hss
          exact ⟨hp₀, hnull, hone, hnn.symm⟩
        · cases hf
    · rintro ⟨hp, hnull, hval, hname⟩
      unfold singleFacts
      rw [List.mem_flatMap]
      refine ⟨p, hp, ?_⟩
      rw [List.mem_filterMap]
      refine ⟨val, ?_, ?_⟩
      · unfold keysOf
        rw [mem_dedupFirst, List.mem_map]
        have hsrc : src ∈ valueItems items p val := by
          rw [hval]
          exact List.mem_singleton.mpr rfl
        have hmf := List.mem_filter.mp hsrc
        exact ⟨src, hmf.1, by simpa using hmf.2⟩
      · rw [if_neg hnull, hval]
        subst hname
        rfl
  refine ⟨hiff p val name src, ?_, ?_⟩
  · intro p' v' n' s' hm
    have h := (hiff p' v' n' s').mp hm
    rw [h.2.2.1]
    rfl
  · intro q hq
    unfold categoryQuestions
    exact List.mem_append_left _ (List.mem_append_left _
      (List.mem_append_left _ (List.mem_append_left _ hq)))

/-- Witness for C3 on a planted dataset: the value `x` of property `c`
is held only by item `A`, so its single fact is generated (the shared
value `y` has a two-item list, excluded by the characterization). -/
theorem claim_C3_witness :
    Question.propToName "m" "c" "x" "A" ⟨"A", none, none, [("c", JVal.str "x")]⟩
      ∈ singleFacts "m"
        [⟨"A", none, none, [("c", JVal.str "x")]⟩,
         ⟨"B", none, none, [("c", JVal.str "y")]⟩,
         ⟨"C", none, none, [("c", JVal.str "y")]⟩]
        (allPropsOf
          [⟨"A", none, none, [("c", JVal.str "x")]⟩,
           ⟨"B", none, none, [("c", JVal.str "y")]⟩,
           ⟨"C", none, none, [("c", JVal.str "y")]⟩]) :=
  (claim_C3 ⟨fun _ => 0, fun _ _ => 0, fun _ _ => 0⟩ "m"
      [⟨"A", none, none, [("c", JVal.str "x")]⟩,
       ⟨"B", none, none, [("c", JVal.str "y")]⟩,
       ⟨"C", none, none, [("c", JVal.str "y")]⟩]
      "c" "x" "A" ⟨"A", none, none, [("c", JVal.str "x")]⟩).1.mpr (by decide)

/-! ### Correct option always present -/

/-- C8: the option list of a name→image question always carries an
option labelled with the asked item's name — the item is forcibly
substituted in (appended below four options, else written into a slot)
when the random sample missed it — and every image→name choice list
contains the correct name. -/
theorem claim_C8 :
    (∀ (rShuf rOpt : Nat → Nat) (rSrc : Nat) (rFinal : Nat → Nat) (qname : String)
        (src : Item) (correctImage : Option String) (categoryItems : List Item),
      qname = src.name →
      qname ∈ (renderNameToImageChoices rShuf rOpt rSrc rFinal qname src correctImage
          categoryItems).map Prod.fst)
    ∧ (∀ (r₁ r₂ : Nat → Nat) (items : List Item) (correctName : String),
        correctName ∈ pickNameChoicesFromImageItems r₁ r₂ items correctName 4) := by
  constructor
  · intro rShuf rOpt rSrc rFinal qname src correctImage categoryItems hname
    have key : ∀ (choices : List (String × Option String)) (cImg : Option String),
        qname ∈ (if choices.any fun c => c.1 = qname then choices
          else if choices.length < 4 then choices ++ [(src.name, cImg)]
          else choices.set 0 (src.name, cImg)).map Prod.fst := by
      intro choices cImg
      by_cases hany : choices.any fun c => c.1 = qname
      · rw [if_pos hany]
        rw [List.any_eq_true] at hany
        obtain ⟨c, hc, hcq⟩ := hany
        rw [List.mem_map]
        exact ⟨c, hc, by simpa using hcq⟩
      · rw [if_neg hany]
        by_cases hlen : choices.length < 4
        · rw [if_pos hlen, List.map_append]
          apply List.mem_append_right
          simp [hname]
        · rw [if_neg hlen]
          cases choices with
          | nil => simp at hlen
          | cons c0 cs =>
            show qname ∈ ((src.name, cImg) :: cs).map Prod.fst
            simp [hname]
    unfold renderNameToImageChoices
    dsimp only
    exact ((shuffleArray_perm rFinal _).map Prod.fst).mem_iff.mpr (key _ _)
  · intro r₁ r₂ items correctName
    unfold pickNameChoicesFromImageItems
    dsimp only
    exact (shuffleArray_perm r₂ _).mem_iff.mpr
      (List.mem_append_right _ (List.mem_singleton.mpr rfl))

/-- Witness for C8 at a concrete name→image question whose category has
no imaged candidates at all: the asked item's name is still present. -/
theorem claim_C8_witness :
    "A" ∈ (renderNameToImageChoices (fun _ => 0) (fun _ => 0) 0 (fun _ => 0) "A"
        ⟨"A", some "a.png", none, []⟩ none []).map Prod.fst :=
  claim_C8.1 (fun _ => 0) (fun _ => 0) 0 (fun _ => 0) "A"
    ⟨"A", some "a.png", none, []⟩ none [] rfl

/-! ### Session start -/

theorem isEmpty_false_of_length_pos {α : Type} {l : List α} (h : 0 < l.length) :
    l.isEmpty = false := by
  cases l with
  | nil => simp at h
  | cons a t => rfl

/-- C6: `startQuiz` clamps the requested count to at least 1 and fixes
the session as a prefix of the shuffled pool of size
`min requested poolSize`; with no category selected it returns
unchanged, and with an empty pool it leaves mode, score, streak and best
untouched (only the empty session list is written) — in particular a
request for 5 questions over a 3-question pool yields a 3-question
session, and an empty selection always fails. -/
theorem claim_C6 (ρ : PoolRand) (rs : Nat → Nat) (rawData : List (String × List Item))
    (selected : List String) (requested : Int) (st : SessionState) :
    (selected = [] → startQuiz ρ rs rawData selected requested st = st)
    ∧ 1 ≤ max 1 requested
    ∧ (selected ≠ [] → buildQuestionPool ρ rawData selected ≠ [] →
        (startQuiz ρ rs rawData selected requested st).mode = Mode.inProgress
        ∧ (startQuiz ρ rs rawData selected requested st).session
            = (shuffleArray rs (buildQuestionPool ρ rawData selected)).take
                (max 1 requested).toNat
        ∧ (startQuiz ρ rs rawData selected requested st).session.length
            = min (max 1 requested).toNat (buildQuestionPool ρ rawData selected).length
        ∧ (startQuiz ρ rs rawData selected requested st).best = st.best
        ∧ (startQuiz ρ rs rawData selected requested st).score = 0
        ∧ (startQuiz ρ rs rawData selected requested st).streak = 0)
    ∧ (selected ≠ [] → buildQuestionPool ρ rawData selected = [] →
        (startQuiz ρ rs rawData selected requested st).mode = st.mode
        ∧ (startQuiz ρ rs rawData selected requested st).score = st.score
        ∧ (startQuiz ρ rs rawData selected requested st).streak = st.streak
        ∧ (startQuiz ρ rs rawData selected requested st).best = st.best
        ∧ (startQuiz ρ rs rawData selected requested st).session = [])
    ∧ (selected ≠ [] → requested = 5 →
        (buildQuestionPool ρ rawData selected).length = 3 →
        (startQuiz ρ rs rawData selected requested st).session.length = 3) := by
  have hn1 : 1 ≤ (max 1 requested).toNat := by
    have h := Int.toNat_le_toNat (Int.le_max_left 1 requested)
    omega
  have hsucc : selected ≠ [] → buildQuestionPool ρ rawData selected ≠ [] →
      startQuiz ρ rs rawData selected requested st
        = { mode := Mode.inProgress, score := 0, streak := 0, best := st.best,
            session := (shuffleArray rs (buildQuestionPool ρ rawData selected)).take
              (max 1 requested).toNat,
            index := -1 } := by
    intro hsel hpool
    have hselb : selected.isEmpty = false := by
      cases selected with
      | nil => exact absurd rfl hsel
      | cons a l => rfl
    have hlp : 0 < (buildQuestionPool ρ rawData selected).length :=
      List.length_pos.mpr hpool
    have hlen : ((shuffleArray rs (buildQuestionPool ρ rawData selected)).take
        (max 1 requested).toNat).length
        = min (max 1 requested).toNat (buildQuestionPool ρ rawData selected).length := by
      rw [List.length_take, (shuffleArray_perm rs _).length_eq]
    have hne : ((shuffleArray rs (buildQuestionPool ρ rawData selected)).take
        (max 1 requested).toNat).isEmpty = false := by
      apply isEmpty_false_of_length_pos
      rw [hlen]
      omega
    unfold startQuiz
    rw [if_neg (by simp [hselb])]
    dsimp only
    rw [if_neg (by simp [hne])]
  have hfail : selected ≠ [] → buildQuestionPool ρ rawData selected = [] →
      startQuiz ρ rs rawData selected requested st = { st with session := [] } := by
    intro hsel hpool
    have hselb : selected.isEmpty = false := by
      cases selected with
      | nil => exact absurd rfl hsel
      | cons a l => rfl
    have hshuf : shuffleArray rs (buildQuestionPool ρ rawData selected) = [] := by
      rw [hpool]
      exact (shuffleArray_perm rs []).eq_nil
    have hsess : (shuffleArray rs (buildQuestionPool ρ rawData selected)).take
        (max 1 requested).toNat = [] := by
      rw [hshuf, List.take_nil]
    unfold startQuiz
    rw [if_neg (by simp [hselb])]
    dsimp only
    rw [hsess]
    rfl
  refine ⟨?_, Int.le_max_left 1 requested, ?_, ?_, ?_⟩
  · intro h
    subst h
    rfl
  · intro hsel hpool
    rw [hsucc hsel hpool]
    refine ⟨rfl, rfl, ?_, rfl, rfl, rfl⟩
    rw [List.length_take, (shuffleArray_perm rs _).length_eq]
  · intro hsel hpool
    rw [hfail hsel hpool]
    exact ⟨rfl, rfl, rfl, rfl, rfl⟩
  · intro hsel hreq hlen3
    subst hreq
    have hpool : buildQuestionPool ρ rawData selected ≠ [] := by
      intro h
      rw [h] at hlen3
      simp at hlen3
    rw [hsucc hsel hpool]
    show ((shuffleArray rs (buildQuestionPool ρ rawData selected)).take
      (max 1 (5 : Int)).toNat).length = 3
    rw [List.length_take, (shuffleArray_perm rs _).length_eq, hlen3]
    rfl

/-- Witness for C6 on a concrete dataset with one selected category of
two items: the start succeeds and the controller enters the quiz. -/
theorem claim_C6_witness :
    (startQuiz ⟨fun _ => 0, fun _ _ => 0, fun _ _ => 0⟩ (fun _ => 0)
        [("m", [⟨"A", none, none, [("c", JVal.str "x")]⟩,
                ⟨"B", none, none, [("c", JVal.str "y")]⟩])]
        ["m"] 5 ⟨Mode.setup, 0, 0, 0, [], -1⟩).mode = Mode.inProgress :=
  ((claim_C6 ⟨fun _ => 0, fun _ _ => 0, fun _ _ => 0⟩ (fun _ => 0)
      [("m", [⟨"A", none, none, [("c", JVal.str "x")]⟩,
              ⟨"B", none, none, [("c", JVal.str "y")]⟩])]
      ["m"] 5 ⟨Mode.setup, 0, 0, 0, [], -1⟩).2.2.1 (by decide) (by decide)).1

/-! ### Build-twice stability of the pool -/

theorem flatMap_congr_mem {α β : Type} (l : List α) (f g : α → List β)
    (h : ∀ a ∈ l, f a = g a) : l.flatMap f = l.flatMap g := by
  induction l with
  | nil => rfl
  | cons a l ih =>
    rw [List.flatMap_cons, List.flatMap_cons, h a (List.mem_cons_self a l),
      ih fun x hx => h x (List.mem_cons_of_mem a hx)]

theorem nameToImageFacts_map_congr {β : Type} (f : Question → β)
    (hf : ∀ (cat name : String) (i₁ i₂ : Option String) (src : Item),
      f (Question.nameToImage cat name i₁ src) = f (Question.nameToImage cat name i₂ src))
    (r r' : Nat → Nat) (cat : String) (items : List Item) :
    (nameToImageFacts r cat items).map f = (nameToImageFacts r' cat items).map f := by
  unfold nameToImageFacts
  by_cases hg : 2 ≤ (items.filter hasImages).length
  · rw [if_pos hg, if_pos hg, List.map_map, List.map_map]
    apply List.map_congr_left
    intro p _
    exact hf cat p.2.name _ _ p.2
  · rw [if_neg hg, if_neg hg]

theorem imageToNameFacts_map_congr {β : Type} (f : Question → β)
    (hf : ∀ (cat name : String) (i₁ i₂ : Option String) (src : Item),
      f (Question.imageToName cat name i₁ src) = f (Question.imageToName cat name i₂ src))
    (r r' : Nat → Nat) (cat : String) (items : List Item) :
    (imageToNameFacts r cat items).map f = (imageToNameFacts r' cat items).map f := by
  unfold imageToNameFacts
  by_cases hg : 2 ≤ (items.filter hasImages).length
  · rw [if_pos hg, if_pos hg, List.map_map, List.map_map]
    apply List.map_congr_left
    intro p _
    exact hf cat p.2.name _ _ p.2
  · rw [if_neg hg, if_neg hg]

theorem categoryQuestions_map_congr {β : Type} (f : Question → β)
    (hfNI : ∀ (cat name : String) (i₁ i₂ : Option String) (src : Item),
      f (Question.nameToImage cat name i₁ src) = f (Question.nameToImage cat name i₂ src))
    (hfIN : ∀ (cat name : String) (i₁ i₂ : Option String) (src : Item),
      f (Question.imageToName cat name i₁ src) = f (Question.imageToName cat name i₂ src))
    (ρ ρ' : PoolRand) (cat : String) (items : List Item) :
    (categoryQuestions ρ cat items).map f = (categoryQuestions ρ' cat items).map f := by
  unfold categoryQuestions
  dsimp only
  rw [List.map_append, List.map_append, List.map_append, List.map_append,
    List.map_append, List.map_append, List.map_append, List.map_append]
  rw [nameToImageFacts_map_congr f hfNI (ρ.imgNI cat) (ρ'.imgNI cat) cat items,
    imageToNameFacts_map_congr f hfIN (ρ.imgIN cat) (ρ'.imgIN cat) cat items]

theorem dedupByAux_map_congr {β : Type} (f : Question → β) :
    ∀ (l₁ l₂ : List Question) (seen : List String),
      l₁.map dedupKey = l₂.map dedupKey → l₁.map f = l₂.map f →
      (dedupByAux dedupKey seen l₁).map f = (dedupByAux dedupKey seen l₂).map f := by
  intro l₁
  induction l₁ with
  | nil =>
    intro l₂ seen hk _
    cases l₂ with
    | nil => rfl
    | cons q l => simp at hk
  | cons q₁ l₁ ih =>
    intro l₂ seen hk hf
    cases l₂ with
    | nil => simp at hk
    | cons q₂ l₂ =>
      simp only [List.map_cons, List.cons.injEq] at hk hf
      rw [dedupByAux_cons, dedupByAux_cons]
      by_cases h : dedupKey q₁ ∈ seen
      · rw [if_pos h, if_pos (hk.1 ▸ h)]
        exact ih l₂ seen hk.2 hf.2
      · rw [if_neg h, if_neg (fun hm => h (hk.1 ▸ hm))]
        rw [List.map_cons, List.map_cons, hf.1]
        congr 1
        rw [hk.1]
        exact ih l₂ (dedupKey q₂ :: seen) hk.2 hf.2

/-- C7: building the pool twice from the same dataset and selection —
with arbitrary, independent outcomes of every random draw (final
shuffle and per-item image picks) — yields pools of equal length and
with the same multiset of (type, category, correct-answer)
signatures. -/
theorem claim_C7 (ρ₁ ρ₂ : PoolRand) (rawData : List (String × List Item))
    (selected : List String) :
    (buildQuestionPool ρ₁ rawData selected).length
      = (buildQuestionPool ρ₂ rawData selected).length
    ∧ List.Perm ((buildQuestionPool ρ₁ rawData selected).map sigOf)
        ((buildQuestionPool ρ₂ rawData selected).map sigOf) := by
  have hkeys :
      ((rawData.filter fun c =>
          c.1 != "_meta" && selected.contains c.1 && !c.2.isEmpty).flatMap
        fun c => categoryQuestions ρ₁ c.1 c.2).map dedupKey
      = ((rawData.filter fun c =>
          c.1 != "_meta" && selected.contains c.1 && !c.2.isEmpty).flatMap
        fun c => categoryQuestions ρ₂ c.1 c.2).map dedupKey := by
    rw [List.map_flatMap, List.map_flatMap]
    apply flatMap_congr_mem
    intro c _
    exact categoryQuestions_map_congr dedupKey (fun _ _ _ _ _ => rfl)
      (fun _ _ _ _ _ => rfl) ρ₁ ρ₂ c.1 c.2
  have hsigs :
      ((rawData.filter fun c =>
          c.1 != "_meta" && selected.contains c.1 && !c.2.isEmpty).flatMap
        fun c => categoryQuestions ρ₁ c.1 c.2).map sigOf
      = ((rawData.filter fun c =>
          c.1 != "_meta" && selected.contains c.1 && !c.2.isEmpty).flatMap
        fun c => categoryQuestions ρ₂ c.1 c.2).map sigOf := by
    rw [List.map_flatMap, List.map_flatMap]
    apply flatMap_congr_mem
    intro c _
    exact categoryQuestions_map_congr sigOf (fun _ _ _ _ _ => rfl)
      (fun _ _ _ _ _ => rfl) ρ₁ ρ₂ c.1 c.2
  have hd := dedupByAux_map_congr sigOf _ _ [] hkeys hsigs
  have hdk := dedupByAux_map_congr dedupKey _ _ [] hkeys hkeys
  constructor
  · unfold buildQuestionPool
    dsimp only
    rw [(shuffleArray_perm _ _).length_eq, (shuffleArray_perm _ _).length_eq]
    have hlen := congrArg List.length hdk
    rw [List.length_map, List.length_map] at hlen
    exact hlen
  · unfold buildQuestionPool
    dsimp only
    refine ((shuffleArray_perm _ _).map sigOf).trans ?_
    rw [show (dedupeQuestions ((rawData.filter fun c =>
        c.1 != "_meta" && selected.contains c.1 && !c.2.isEmpty).flatMap
          fun c => categoryQuestions ρ₁ c.1 c.2)).map sigOf
        = (dedupeQuestions ((rawData.filter fun c =>
        c.1 != "_meta" && selected.contains c.1 && !c.2.isEmpty).flatMap
          fun c => categoryQuestions ρ₂ c.1 c.2)).map sigOf from hd]
    exact ((shuffleArray_perm _ _).map sigOf).symm

end QuizApp
